import Mathlib

/-!
Verification of the surgical text-editing subsystem of `termpipe-mcp`
(`src/termpipe_mcp/tools/surgical.py`).

Strings are embedded as `List Char` (`Str`), so that every operation of the
Python source (`in`, `count`, `replace`, `lower`, `strip`, slicing,
`split("\n")`) can be given an executable, structurally recursive model with
Python's exact semantics.  Files are `Option (List Str)` — `none` models a
missing path; each mutation returns the `EditResult` it reports together with
the file content after the call (equal to the input whenever the source does
not reach `_write_file_lines`).
-/

namespace Surgical

/-- Characters of a Python string. -/
abbrev Str := List Char

/-! ## Python string primitives -/

/-- Python's `str.lower`, restricted to per-character case folding (the source
only ever compares ASCII text this way). -/
def pyLower (s : Str) : Str := s.map Char.toLower

/-- Whitespace recognised by Python's `str.strip`: space, tab, newline,
carriage return, vertical tab, form feed. -/
def isPySpace (c : Char) : Bool :=
  c = ' ' || c = '\t' || c = '\n' || c = '\r' || c = Char.ofNat 11 || c = Char.ofNat 12

/-- Python's `str.strip`: drop leading and trailing whitespace. -/
def pyStrip (s : Str) : Str :=
  ((s.dropWhile isPySpace).reverse.dropWhile isPySpace).reverse

/-- Python's `pat in s` substring test (`[] ⊆ s` always holds, as in Python). -/
def containsSub (s pat : Str) : Bool :=
  pat.isPrefixOf s ||
    match s with
    | [] => false
    | _ :: t => containsSub t pat

/-- Left-to-right non-overlapping scan used by Python's `str.count` for a
non-empty pattern: on a match, skip the whole pattern.  `fuel` bounds the
recursion; `fuel = s.length` is always enough because every step consumes at
least one character. -/
def scanCount (pat : Str) : Nat → Str → Nat
  | 0, _ => 0
  | _ + 1, [] => 0
  | fuel + 1, c :: t =>
    if pat.isPrefixOf (c :: t) then
      scanCount pat fuel (List.drop (pat.length - 1) t) + 1
    else
      scanCount pat fuel t

/-- Python's `s.count(pat)`: non-overlapping occurrences; an empty pattern
occurs `len(s) + 1` times. -/
def pyCount (s pat : Str) : Nat :=
  if pat = [] then s.length + 1 else scanCount pat s.length s

/-- Replacement scan of Python's `str.replace` for a non-empty pattern,
matching `scanCount` step for step. -/
def scanReplace (pat rep : Str) : Nat → Str → Str
  | 0, s => s
  | _ + 1, [] => []
  | fuel + 1, c :: t =>
    if pat.isPrefixOf (c :: t) then
      rep ++ scanReplace pat rep fuel (List.drop (pat.length - 1) t)
    else
      c :: scanReplace pat rep fuel t

/-- Python's `s.replace(pat, rep)`: every non-overlapping occurrence is
replaced; for an empty pattern `rep` is inserted before every character and at
the end, as in Python. -/
def pyReplace (s pat rep : Str) : Str :=
  if pat = [] then rep ++ (s.map (fun c => [c] ++ rep)).flatten
  else scanReplace pat rep s.length s

/-- Python's `s.split("\n")`: never empty; splitting the empty string gives
`[[]]`. -/
def splitNl : Str → List Str
  | [] => [[]]
  | c :: t =>
    if c = '\n' then [] :: splitNl t
    else
      match splitNl t with
      | [] => [[c]]
      | h :: r => (c :: h) :: r

/-- Joining lines with `"\n"`, as `_write_file_lines` does. -/
def joinNl (lines : List Str) : Str := List.intercalate ['\n'] lines

/-! ## Python slicing -/

/-- Effective index of a Python slice endpoint `i` on a sequence of length
`n`: negative indices count from the end and clamp at `0`; `take`/`drop`
provide the upper clamp. -/
def sliceIdx (n : Nat) (i : Int) : Nat :=
  if i < 0 then ((n : Int) + i).toNat else i.toNat

/-- Python `l[:i]`. -/
def pySliceTo (l : List α) (i : Int) : List α := l.take (sliceIdx l.length i)

/-- Python `l[i:]`. -/
def pySliceFrom (l : List α) (i : Int) : List α := l.drop (sliceIdx l.length i)

/-- Python `l[a:b]`. -/
def pySlice (l : List α) (a b : Int) : List α :=
  (l.take (sliceIdx l.length b)).drop (sliceIdx l.length a)

/-! ## difflib.SequenceMatcher(None, a, b).ratio()

The source scores fuzzy matches with `difflib.SequenceMatcher(None, target,
line).ratio()`.  The model below follows CPython's `difflib`: `b2j` maps each
character to its ascending index list in `b`; with `autojunk` and
`len(b) >= 200`, characters occurring more than `len(b) // 100 + 1` times are
"popular" and dropped from `b2j`; `find_longest_match` runs the row-by-row
chain-length dynamic programming over `b2j`, then extends the best block over
equal characters on both ends (`isjunk` is `None`, so `bjunk` is empty and the
two junk-extension loops never fire); `ratio` is twice the total matched size
over the total length, as an exact rational. -/

/-- Index at `i`, total with a dummy default (all accesses are in range). -/
def chAt (s : Str) (i : Nat) : Char := s.getD i (Char.ofNat 0)

/-- Ascending indices of the occurrences of `c`, starting the count at `i`. -/
def idxOfChar (c : Char) : Nat → Str → List Nat
  | _, [] => []
  | i, d :: t => if d = c then i :: idxOfChar c (i + 1) t else idxOfChar c (i + 1) t

/-- Occurrence indices of `c` in `b` (the `b2j` entry before junk removal). -/
def bIndices (b : Str) (c : Char) : List Nat := idxOfChar c 0 b

/-- Popular character dropped by `autojunk`: `len(b) >= 200` and more than
`len(b) // 100 + 1` occurrences. -/
def isPopular (b : Str) (c : Char) : Bool :=
  decide (200 ≤ b.length) && decide (b.length / 100 + 1 < (bIndices b c).length)

/-- The `b2j` lookup used by the dynamic programming. -/
def b2j (b : Str) (c : Char) : List Nat := if isPopular b c then [] else bIndices b c

/-- One row of `find_longest_match`: walk the `b2j` list of `a[i]` in order,
skipping `j < blo` and stopping at the first `j >= bhi`; chain length
`k = j2len.get(j-1, 0) + 1` (the `j - 1` lookup misses when `j = 0`, as
Python's `get(-1, 0)` does); record `(i-k+1, j-k+1, k)` when `k` beats the
best.  Returns the new row map and the best triple. -/
def flmRow (blo bhi i : Nat) (j2len : List (Nat × Nat)) :
    List Nat → List (Nat × Nat) → Nat × Nat × Nat → List (Nat × Nat) × (Nat × Nat × Nat)
  | [], newj2len, best => (newj2len, best)
  | j :: js, newj2len, best =>
    if j < blo then flmRow blo bhi i j2len js newj2len best
    else if bhi ≤ j then (newj2len, best)
    else
      let k := (if j = 0 then 0 else (List.lookup (j - 1) j2len).getD 0) + 1
      let best' := if best.2.2 < k then (i + 1 - k, j + 1 - k, k) else best
      flmRow blo bhi i j2len js ((j, k) :: newj2len) best'

/-- Backward extension: while `besti > alo`, `bestj > blo` and the characters
before the block are equal, grow the block to the left. -/
def extendBack (a b : Str) (alo blo : Nat) : Nat → Nat × Nat × Nat → Nat × Nat × Nat
  | 0, best => best
  | fuel + 1, (bi, bj, bs) =>
    if alo < bi && blo < bj && (chAt a (bi - 1) == chAt b (bj - 1)) then
      extendBack a b alo blo fuel (bi - 1, bj - 1, bs + 1)
    else (bi, bj, bs)

/-- Forward extension: while the characters just after the block are equal and
inside `[alo,ahi) × [blo,bhi)`, grow the block to the right. -/
def extendFwd (a b : Str) (ahi bhi : Nat) : Nat → Nat × Nat × Nat → Nat × Nat × Nat
  | 0, best => best
  | fuel + 1, (bi, bj, bs) =>
    if bi + bs < ahi && bj + bs < bhi && (chAt a (bi + bs) == chAt b (bj + bs)) then
      extendFwd a b ahi bhi fuel (bi, bj, bs + 1)
    else (bi, bj, bs)

/-- CPython's `find_longest_match` on `[alo,ahi) × [blo,bhi)` (with
`isjunk = None`, so only the two non-junk extension loops act). -/
def findLongestMatch (a b : Str) (alo ahi blo bhi : Nat) : Nat × Nat × Nat :=
  let st := (List.range' alo (ahi - alo)).foldl
    (fun st i => flmRow blo bhi i st.1 (b2j b (chAt a i)) [] st.2)
    ([], (alo, blo, 0))
  extendFwd a b ahi bhi a.length (extendBack a b alo blo a.length st.2)

/-- Total matched size of `get_matching_blocks`, as the recursive sum around
each longest match (the queue order of the source does not affect the sum).
`fuel = a.length + 1` dominates the recursion depth since every recursive call
strictly shrinks `ahi - alo`. -/
def matchSumAux (a b : Str) : Nat → Nat → Nat → Nat → Nat → Nat
  | 0, _, _, _, _ => 0
  | fuel + 1, alo, ahi, blo, bhi =>
    let m := findLongestMatch a b alo ahi blo bhi
    if m.2.2 = 0 then 0
    else m.2.2 + matchSumAux a b fuel alo m.1 blo m.2.1 +
      matchSumAux a b fuel (m.1 + m.2.2) ahi (m.2.1 + m.2.2) bhi

/-- Total matched characters between `a` and `b`. -/
def matchSum (a b : Str) : Nat := matchSumAux a b (a.length + 1) 0 a.length 0 b.length

/-- `SequenceMatcher(None, a, b).ratio()` as an exact rational:
`2 * matches / (len(a) + len(b))`, and `1` when both are empty. -/
def ratioQ (a b : Str) : ℚ :=
  if a.length + b.length = 0 then 1
  else (2 * matchSum a b : ℚ) / ((a.length + b.length : Nat) : ℚ)

/-! ## `_find_similar_lines` -/

/-- Candidate triples `(line index, line content, score)`. -/
abbrev Cand := Nat × Str × ℚ

/-- Score of a candidate. -/
def scoreOf (c : Cand) : ℚ := c.2.2

/-- Line index of a candidate. -/
def idxOf (c : Cand) : Nat := c.1

/-- Bidirectional containment test of `_find_similar_lines`:
`target_lower in line_lower or line_lower in target_lower`. -/
def bidirContains (tl ll : Str) : Bool := containsSub ll tl || containsSub tl ll

/-- Candidate produced for line `i` with content `line`, given the
lowered-stripped target `tl`: blank lines are skipped; containment scores
`0.9`; otherwise the line is kept only when `ratioQ tl line_lower ≥ θ`, scored
by that ratio. -/
def simCand (tl : Str) (θ : ℚ) (i : Nat) (line : Str) : Option Cand :=
  let ll := pyStrip (pyLower line)
  if ll = [] then none
  else if bidirContains tl ll then some (i, line, 9 / 10)
  else
    let r := ratioQ tl ll
    if θ ≤ r then some (i, line, r) else none

/-- The `results` list of `_find_similar_lines`, accumulated in line order
starting at index `i`. -/
def candAux (tl : Str) (θ : ℚ) : Nat → List Str → List Cand
  | _, [] => []
  | i, l :: ls =>
    match simCand tl θ i l with
    | none => candAux tl θ (i + 1) ls
    | some c => c :: candAux tl θ (i + 1) ls

/-- Insert a candidate before the first strictly lower score; equal scores
stay in front, so folding this over the list is the stable descending sort
that Python's `sorted(results, key=lambda x: -x[2])` performs. -/
def insDesc (c : Cand) : List Cand → List Cand
  | [] => [c]
  | d :: ds => if scoreOf d < scoreOf c then c :: d :: ds else d :: insDesc c ds

/-- Stable sort by descending score. -/
def sortDesc (l : List Cand) : List Cand := l.foldl (fun acc c => insDesc c acc) []

/-- `_find_similar_lines(lines, target, threshold)`: candidates in line order,
stably sorted by descending score, truncated to 5. -/
def findSimilarLines (lines : List Str) (target : Str) (θ : ℚ) : List Cand :=
  (sortDesc (candAux (pyStrip (pyLower target)) θ 0 lines)).take 5

/-! ## The mutation operations

Every operation reads the file, computes, and either returns an error before
`_write_file_lines` is reached (second component = input file) or writes its
new content.  `none` models a path that does not exist
(`_read_file_lines` raises `FileNotFoundError`). -/

/-- Outcome reported by an operation.  Error kinds follow the branch taken by
the source; `ambiguous` carries the match count and the line numbers the
report prints (`matches[:10]`), `wrongLine` the lines printed for a bad
`expected_line` hint (`matches[:5]`), `warnMultiple` the occurrence count of
the multiple-match warning, and `okDeleted` the deleted lines that
`delete_lines` returns for audit. -/
inductive EditResult where
  | ok : EditResult
  | okDeleted : List Str → EditResult
  | notFound : EditResult
  | outOfRange : EditResult
  | invalidRange : EditResult
  | textNotFound : EditResult
  | wrongLine : List Nat → EditResult
  | ambiguous : Nat → List Nat → EditResult
  | warnMultiple : Nat → EditResult
  | ioFailure : EditResult
deriving DecidableEq

/-- Did the operation apply an edit?  Exactly the constructors produced on a
branch that reaches `_write_file_lines`. -/
def isOk : EditResult → Bool
  | .ok => true
  | .okDeleted _ => true
  | _ => false

/-- File state: `none` when the path does not exist. -/
abbrev FileSt := Option (List Str)

/-- Clamp of `insert_lines`: `line_number` pulled into `[0, len(lines)]`. -/
def clampIdx (i : Int) (n : Nat) : Nat :=
  if i < 0 then 0 else if (n : Int) < i then n else i.toNat

/-- `insert_lines(path, line_number, content)`: clamp the index, splice
`content.split("\n")` before it, write. -/
def insertLines (file : FileSt) (lineNumber : Int) (content : Str) : EditResult × FileSt :=
  match file with
  | none => (.notFound, none)
  | some lines =>
    let newLines := splitNl content
    let n := clampIdx lineNumber lines.length
    (.ok, some (lines.take n ++ newLines ++ lines.drop n))

/-- `replace_lines(path, start_line, end_line, content)`: `start` must be in
range, `end < start` is rejected, then `lines[:start] + new + lines[end:]` is
written. -/
def replaceLines (file : FileSt) (startLine endLine : Int) (content : Str) :
    EditResult × FileSt :=
  match file with
  | none => (.notFound, none)
  | some lines =>
    if startLine < 0 ∨ (lines.length : Int) ≤ startLine then (.outOfRange, some lines)
    else if endLine < startLine then (.invalidRange, some lines)
    else
      (.ok, some (pySliceTo lines startLine ++ splitNl content ++ pySliceFrom lines endLine))

/-- `delete_lines(path, start_line, end_line)`: only `start` is validated; the
source then writes `lines[:start] + lines[end:]` and reports
`lines[start:end]` as the deleted content — there is no `end < start` check. -/
def deleteLines (file : FileSt) (startLine endLine : Int) : EditResult × FileSt :=
  match file with
  | none => (.notFound, none)
  | some lines =>
    if startLine < 0 ∨ (lines.length : Int) ≤ startLine then (.outOfRange, some lines)
    else
      (.okDeleted (pySlice lines startLine endLine),
        some (pySliceTo lines startLine ++ pySliceFrom lines endLine))

/-- `replace_at_line(path, line_number, old_text, new_text)`: validate the
index; `old_text not in line` is a text-not-found failure; more than one
occurrence returns the multiple-match warning without editing; otherwise the
line is rewritten with `line.replace(old_text, new_text)`. -/
def replaceAtLine (file : FileSt) (lineNumber : Int) (oldText newText : Str) :
    EditResult × FileSt :=
  match file with
  | none => (.notFound, none)
  | some lines =>
    if lineNumber < 0 ∨ (lines.length : Int) ≤ lineNumber then (.outOfRange, some lines)
    else
      let line := lines.getD lineNumber.toNat []
      if containsSub line oldText = false then (.textNotFound, some lines)
      else
        let count := pyCount line oldText
        if 1 < count then (.warnMultiple count, some lines)
        else (.ok, some (lines.set lineNumber.toNat (pyReplace line oldText newText)))

/-- Match list of `smart_replace`: `(i, line)` for every line with
`old_text in line`, in line order from index `i`. -/
def smartMatchesAux (oldText : Str) : Nat → List Str → List (Nat × Str)
  | _, [] => []
  | i, l :: ls =>
    if containsSub l oldText then (i, l) :: smartMatchesAux oldText (i + 1) ls
    else smartMatchesAux oldText (i + 1) ls

/-- All `(line number, line)` matches of `old_text` in the file. -/
def smartMatches (lines : List Str) (oldText : Str) : List (Nat × Str) :=
  smartMatchesAux oldText 0 lines

/-- `smart_replace(path, old_text, new_text, expected_line)`: no match is a
text-not-found failure; with several matches an `expected_line` hint narrows
to the matching line or fails, and remaining ambiguity reports the matches;
a unique match rewrites that line with `line.replace(old_text, new_text)`.
The unreachable empty-match fall-through mirrors the generic exception
handler of the source (`matches[0]` on an empty list). -/
def smartReplace (file : FileSt) (oldText newText : Str) (expectedLine : Option Int) :
    EditResult × FileSt :=
  match file with
  | none => (.notFound, none)
  | some lines =>
    let ms := smartMatches lines oldText
    if ms.isEmpty then (.textNotFound, some lines)
    else
      let narrowed : Except EditResult (List (Nat × Str)) :=
        if 1 < ms.length then
          match expectedLine with
          | some e =>
            let exact := ms.filter (fun m => (m.1 : Int) = e)
            if exact.isEmpty then .error (.wrongLine ((ms.map (·.1)).take 5))
            else .ok exact
          | none => .ok ms
        else .ok ms
      match narrowed with
      | .error r => (r, some lines)
      | .ok ms2 =>
        if 1 < ms2.length then
          (.ambiguous ms2.length ((ms2.map (·.1)).take 10), some lines)
        else
          match ms2 with
          | (i, content) :: _ => (.ok, some (lines.set i (pyReplace content oldText newText)))
          | [] => (.ioFailure, some lines)

/-- Round trip of claim C8: `delete_lines(start, end)` followed by
`insert_lines(start, D)` where `D` is the deleted content joined with
newlines. -/
def deleteInsertRound (lines : List Str) (startLine endLine : Int) : EditResult × FileSt :=
  match deleteLines (some lines) startLine endLine with
  | (.okDeleted d, f1) => insertLines f1 startLine (joinNl d)
  | other => other

/-! ## Helper lemmas -/

theorem sliceIdx_natCast (n m : Nat) : sliceIdx n (m : Int) = m := by
  simp [sliceIdx]

theorem pySliceTo_natCast (l : List α) (m : Nat) : pySliceTo l (m : Int) = l.take m := by
  simp [pySliceTo, sliceIdx_natCast]

theorem pySliceFrom_natCast (l : List α) (m : Nat) : pySliceFrom l (m : Int) = l.drop m := by
  simp [pySliceFrom, sliceIdx_natCast]

theorem pySlice_natCast (l : List α) (a b : Nat) :
    pySlice l (a : Int) (b : Int) = (l.take b).drop a := by
  simp [pySlice, sliceIdx_natCast]

theorem clampIdx_natCast_of_le {m n : Nat} (h : m ≤ n) : clampIdx (m : Int) n = m := by
  unfold clampIdx
  rw [if_neg (by omega), if_neg (by exact_mod_cast Nat.not_lt.mpr h)]
  simp

/-- Validation guard of `replace_lines` / `delete_lines` / `replace_at_line`
passes for an in-range natural index. -/
theorem startGuard_of_lt {m n : Nat} (h : m < n) :
    ¬ ((m : Int) < 0 ∨ (n : Int) ≤ (m : Int)) := by
  omega

theorem smartMatchesAux_eq_nil {o : Str} {ls : List Str}
    (h : ∀ l ∈ ls, containsSub l o = false) (i : Nat) : smartMatchesAux o i ls = [] := by
  induction ls generalizing i with
  | nil => rfl
  | cons l t ih =>
    have hl := h l (by simp)
    simp only [smartMatchesAux, hl, Bool.false_eq_true, if_false]
    exact ih (fun x hx => h x (by simp [hx])) (i + 1)

theorem mem_smartMatchesAux {o : Str} {ls : List Str} {j : Nat} {l : Str} :
    ∀ {i : Nat}, (j, l) ∈ smartMatchesAux o i ls ↔
      (i ≤ j ∧ ls[j - i]? = some l ∧ containsSub l o = true) := by
  induction ls with
  | nil => simp [smartMatchesAux]
  | cons x t ih =>
    intro i
    by_cases hx : containsSub x o
    · simp only [smartMatchesAux, hx, if_true, List.mem_cons, Prod.mk.injEq, ih]
      constructor
      · rintro (⟨rfl, rfl⟩ | ⟨h1, h2, h3⟩)
        · simp [hx]
        · refine ⟨by omega, ?_, h3⟩
          have : j - i = (j - (i + 1)) + 1 := by omega
          rw [this]
          simpa using h2
      · rintro ⟨h1, h2, h3⟩
        rcases Nat.eq_or_lt_of_le h1 with rfl | hlt
        · left
          simp at h2
          exact ⟨rfl, h2.symm⟩
        · right
          refine ⟨by omega, ?_, h3⟩
          have : j - i = (j - (i + 1)) + 1 := by omega
          rw [this] at h2
          simpa using h2
    · simp only [smartMatchesAux, hx, Bool.false_eq_true, if_false, ih]
      constructor
      · rintro ⟨h1, h2, h3⟩
        refine ⟨by omega, ?_, h3⟩
        have : j - i = (j - (i + 1)) + 1 := by omega
        rw [this]
        simpa using h2
      · rintro ⟨h1, h2, h3⟩
        rcases Nat.eq_or_lt_of_le h1 with rfl | hlt
        · simp at h2
          subst h2
          simp [hx] at h3
        · refine ⟨by omega, ?_, h3⟩
          have : j - i = (j - (i + 1)) + 1 := by omega
          rw [this] at h2
          simpa using h2

theorem mem_smartMatches {lines : List Str} {o : Str} {j : Nat} {l : Str} :
    (j, l) ∈ smartMatches lines o ↔ (lines[j]? = some l ∧ containsSub l o = true) := by
  unfold smartMatches
  rw [mem_smartMatchesAux]
  simp

/-! ## Claim C6 — `insert_lines` clamps and never fails -/

/-- Claim C6: `insert_lines(path, i, C)` on an existing file never fails for
any integer index `i`: `i` is clamped into `[0, len(lines)]`, so `i < 0`
inserts at position 0, `i = len(lines)` appends, `i > len(lines)` also
appends, and the new lines are spliced before the clamped index. -/
theorem insert_lines_clamps (lines : List Str) (i : Int) (c : Str) :
    isOk (insertLines (some lines) i c).1 = true ∧
    (insertLines (some lines) i c).2 =
      some (lines.take (clampIdx i lines.length) ++ splitNl c ++
        lines.drop (clampIdx i lines.length)) ∧
    (i < 0 → (insertLines (some lines) i c).2 = some (splitNl c ++ lines)) ∧
    ((lines.length : Int) ≤ i →
      (insertLines (some lines) i c).2 = some (lines ++ splitNl c)) := by
  refine ⟨rfl, rfl, ?_, ?_⟩
  · intro hneg
    simp [insertLines, clampIdx, hneg]
  · intro hge
    have h0 : ¬ (i < 0) := by omega
    by_cases hlt : (lines.length : Int) < i
    · simp [insertLines, clampIdx, h0, hlt]
    · have hi : i = (lines.length : Int) := by omega
      subst hi
      simp [insertLines, clampIdx, h0]

/-- Witness for C6 at a concrete input: a negative index inserts at the
front. -/
theorem insert_lines_clamps_witness :
    (insertLines (some [['a']]) (-2) ['x']).2 = some (splitNl ['x'] ++ [['a']]) :=
  (insert_lines_clamps [['a']] (-2) ['x']).2.2.1 (by decide)

/-! ## Claim C4 — `replace_lines` splice -/

/-- Claim C4 counterexample: the claim allows `start = end = len(lines)`, but
the source rejects `start >= len(lines)` as out of range, so
`replace_lines` on the one-line file `["a"]` with `(start, end) = (1, 1)`
fails and writes nothing instead of appending `split(C)`. -/
theorem replace_lines_at_length_fails :
    (1:Nat) ≤ 1 ∧ (1:Nat) ≤ [['a']].length ∧
    replaceLines (some [['a']]) 1 1 ['x'] = (.outOfRange, some [['a']]) ∧
    some [['a']] ≠ some ([['a']].take 1 ++ splitNl ['x'] ++ [['a']].drop 1) := by
  decide

/-- Claim C4 (amended): for `0 ≤ start < len(lines)` and
`start ≤ end ≤ len(lines)`, `replace_lines(path, start, end, C)` succeeds and
the file afterwards equals `lines[:start] + split(C) + lines[end:]`. -/
theorem replace_lines_splices (lines : List Str) (s e : Nat) (c : Str)
    (hs : s < lines.length) (hse : s ≤ e) (he : e ≤ lines.length) :
    (replaceLines (some lines) s e c).1 = .ok ∧
    (replaceLines (some lines) s e c).2 =
      some (lines.take s ++ splitNl c ++ lines.drop e) := by
  simp only [replaceLines]
  rw [if_neg (startGuard_of_lt hs), if_neg (by omega : ¬ ((e : Int) < (s : Int)))]
  rw [pySliceTo_natCast, pySliceFrom_natCast]
  exact ⟨rfl, rfl⟩

/-- Witness for C4's amended theorem: the scenario of the spec,
`["a","b","c"]` with `replace_lines(1, 2, "x\ny")`. -/
theorem replace_lines_splices_witness :
    (replaceLines (some [['a'], ['b'], ['c']]) (1:Nat) (2:Nat) ['x', '\n', 'y']).1 = .ok ∧
    (replaceLines (some [['a'], ['b'], ['c']]) (1:Nat) (2:Nat) ['x', '\n', 'y']).2 =
      some ([['a'], ['b'], ['c']].take 1 ++ splitNl ['x', '\n', 'y'] ++
        [['a'], ['b'], ['c']].drop 2) :=
  replace_lines_splices [['a'], ['b'], ['c']] 1 2 ['x', '\n', 'y']
    (by decide) (by decide) (by decide)

/-! ## Claim C5 — missing `end < start` validation in `delete_lines` -/

/-- Claim C5: `replace_lines` does validate `end < start` (see
`replace_lines_at_length_fails` for its guard structure), but `delete_lines`
does not: on `["a", "b"]` with `(start, end) = (1, 0)` it reports success
("deleted" -1 lines) and writes `lines[:1] + lines[0:]`, duplicating line 0
— a delete that grows the file, instead of the `InvalidRange` failure the
claim requires. -/
theorem delete_lines_end_before_start_writes :
    deleteLines (some [['a'], ['b']]) 1 0 =
      (.okDeleted [], some [['a'], ['a'], ['b']]) ∧
    isOk (deleteLines (some [['a'], ['b']]) 1 0).1 = true ∧
    (deleteLines (some [['a'], ['b']]) 1 0).1 ≠ .invalidRange := by
  decide

/-! ## Claim C1 — failures never write -/

/-- Claim C1: for every mutation operation and every input on which it
returns a failure result, the file content after the call equals the content
before it; in particular `replace_at_line` with `old_text` absent from the
(in-range) target line returns a `TextNotFound` failure and performs no
write. -/
theorem failure_leaves_file_unchanged (f : FileSt) :
    (∀ (i : Int) (c : Str),
      isOk (insertLines f i c).1 = false → (insertLines f i c).2 = f) ∧
    (∀ (s e : Int),
      isOk (deleteLines f s e).1 = false → (deleteLines f s e).2 = f) ∧
    (∀ (s e : Int) (c : Str),
      isOk (replaceLines f s e c).1 = false → (replaceLines f s e c).2 = f) ∧
    (∀ (i : Int) (o n : Str),
      isOk (replaceAtLine f i o n).1 = false → (replaceAtLine f i o n).2 = f) ∧
    (∀ (o n : Str) (el : Option Int),
      isOk (smartReplace f o n el).1 = false → (smartReplace f o n el).2 = f) ∧
    (∀ (lines : List Str) (i : Nat) (o n : Str), f = some lines →
      i < lines.length → containsSub (lines.getD i []) o = false →
      replaceAtLine f (i : Int) o n = (.textNotFound, some lines)) := by
  refine ⟨?_, ?_, ?_, ?_, ?_, ?_⟩
  · intro i c h
    cases f with
    | none => rfl
    | some lines => simp [insertLines, isOk] at h
  · intro s e h
    cases f with
    | none => rfl
    | some lines =>
      simp only [deleteLines] at h ⊢
      repeat' split at h
      all_goals simp_all [isOk]
  · intro s e c h
    cases f with
    | none => rfl
    | some lines =>
      simp only [replaceLines] at h ⊢
      repeat' split at h
      all_goals simp_all [isOk]
      all_goals rw [if_neg (by omega)]
  · intro i o n h
    cases f with
    | none => rfl
    | some lines =>
      simp only [replaceAtLine] at h ⊢
      repeat' split at h
      all_goals simp_all [isOk]
      all_goals rw [if_neg (by omega)]
  · intro o n el h
    cases f with
    | none => rfl
    | some lines =>
      simp only [smartReplace] at h ⊢
      repeat' split at h
      all_goals simp_all [isOk]
  · intro lines i o n hf hi hc
    subst hf
    simp only [replaceAtLine]
    rw [if_neg (startGuard_of_lt hi)]
    simp only [Int.toNat_natCast]
    rw [if_pos hc]

/-- Witness for C1 at a concrete input: `replace_at_line` on `["a"]`, line 0,
searching for the absent text `"b"`, returns `TextNotFound` and leaves the
file as read. -/
theorem failure_leaves_file_unchanged_witness :
    replaceAtLine (some [['a']]) ((0 : Nat) : Int) ['b'] ['c'] =
      (.textNotFound, some [['a']]) :=
  (failure_leaves_file_unchanged (some [['a']])).2.2.2.2.2 [['a']] 0 ['b'] ['c']
    rfl (by decide) (by decide)

/-! ## Claim C2 — multiple occurrences on the target line -/

theorem containsSub_nil (s : Str) : containsSub s [] = true := by
  cases s <;> simp [containsSub, List.isPrefixOf]

theorem containsSub_of_scanCount_pos {p : Str} :
    ∀ {fuel : Nat} {s : Str}, 0 < scanCount p fuel s → containsSub s p = true := by
  intro fuel
  induction fuel with
  | zero => intro s h; simp [scanCount] at h
  | succ fuel ih =>
    intro s h
    cases s with
    | nil => simp [scanCount] at h
    | cons c t =>
      by_cases hp : p.isPrefixOf (c :: t)
      · simp [containsSub, hp]
      · rw [scanCount, if_neg hp] at h
        simp [containsSub, ih h]

theorem containsSub_of_pyCount_pos {s p : Str} (h : 0 < pyCount s p) :
    containsSub s p = true := by
  by_cases hp : p = []
  · subst hp; exact containsSub_nil s
  · rw [pyCount, if_neg hp] at h
    exact containsSub_of_scanCount_pos h

/-- Claim C2 counterexample: on the file `["aa"]`,
`replace_at_line(0, "a", "b")` returns the multiplicity warning and leaves the
file untouched — the source returns before replacing anything, so the claimed
"still proceeds to replace all occurrences and write the file" is false. -/
theorem replace_at_line_two_occurrences_no_write :
    pyCount ['a', 'a'] ['a'] = 2 ∧
    replaceAtLine (some [['a', 'a']]) 0 ['a'] ['b'] =
      (.warnMultiple 2, some [['a', 'a']]) ∧
    (replaceAtLine (some [['a', 'a']]) 0 ['a'] ['b']).2 ≠ some [['b', 'b']] ∧
    isOk (replaceAtLine (some [['a', 'a']]) 0 ['a'] ['b']).1 = false := by
  decide

/-- Claim C2 (amended): when the in-range target line contains `old_text`
more than once, `replace_at_line` performs no replacement and no write; it
returns a multiplicity warning carrying the occurrence count. -/
theorem replace_at_line_multiple_warns (lines : List Str) (i : Nat) (o n : Str)
    (hi : i < lines.length) (hc : 1 < pyCount (lines.getD i []) o) :
    replaceAtLine (some lines) (i : Int) o n =
      (.warnMultiple (pyCount (lines.getD i []) o), some lines) := by
  simp only [replaceAtLine]
  rw [if_neg (startGuard_of_lt hi)]
  simp only [Int.toNat_natCast]
  have hcontains : ¬ (containsSub (lines.getD i []) o = false) := by
    rw [containsSub_of_pyCount_pos (by omega : 0 < pyCount (lines.getD i []) o)]
    simp
  rw [if_neg hcontains, if_pos hc]

/-- Witness for C2's amended theorem at the counterexample input. -/
theorem replace_at_line_multiple_warns_witness :
    replaceAtLine (some [['a', 'a']]) ((0 : Nat) : Int) ['a'] ['b'] =
      (.warnMultiple (pyCount ([['a', 'a']].getD 0 []) ['a']), some [['a', 'a']]) :=
  replace_at_line_multiple_warns [['a', 'a']] 0 ['a'] ['b'] (by decide) (by decide)

/-! ## Claim C3 — the ambiguous report -/

/-- Claim C3 counterexample: with `old_text` on the 11 lines of
`["a"] * 11`, `smart_replace` does return `Ambiguous` with no write, but its
report lists only the first 10 matching line numbers (`matches[:10]` plus an
"... and 1 more" count): line 10 matches yet is absent from the reported
list, so "lists all N matching line numbers" is false. -/
theorem smart_replace_ambiguous_truncates :
    (smartMatches (List.replicate 11 ['a']) ['a']).length = 11 ∧
    smartReplace (some (List.replicate 11 ['a'])) ['a'] ['b'] none =
      (.ambiguous 11 [0, 1, 2, 3, 4, 5, 6, 7, 8, 9], some (List.replicate 11 ['a'])) ∧
    ((10 : Nat), (['a'] : Str)) ∈ smartMatches (List.replicate 11 ['a']) ['a'] ∧
    ¬ (10 : Nat) ∈ [0, 1, 2, 3, 4, 5, 6, 7, 8, 9] := by
  decide

/-- Claim C3 (amended): when `old_text` occurs on `N > 1` lines and no
`expected_line` hint is given, `smart_replace` performs no write and returns
an `Ambiguous` failure carrying the total count `N` and the first
`min(N, 10)` matching line numbers. -/
theorem smart_replace_ambiguous_no_write (lines : List Str) (o n : Str)
    (h : 1 < (smartMatches lines o).length) :
    smartReplace (some lines) o n none =
      (.ambiguous (smartMatches lines o).length
        (((smartMatches lines o).map (·.1)).take 10), some lines) := by
  have hne : (smartMatches lines o).isEmpty = false := by
    cases hx : smartMatches lines o with
    | nil => simp [hx] at h
    | cons a t => simp
  simp [smartReplace, hne, h]

/-- Witness for C3's amended theorem on the two-line file `["dup", "dup"]`
of the spec's scenario. -/
theorem smart_replace_ambiguous_no_write_witness :
    smartReplace (some [['d', 'u', 'p'], ['d', 'u', 'p']]) ['d', 'u', 'p'] ['o'] none =
      (.ambiguous (smartMatches [['d', 'u', 'p'], ['d', 'u', 'p']] ['d', 'u', 'p']).length
        (((smartMatches [['d', 'u', 'p'], ['d', 'u', 'p']] ['d', 'u', 'p']).map (·.1)).take 10),
        some [['d', 'u', 'p'], ['d', 'u', 'p']]) :=
  smart_replace_ambiguous_no_write [['d', 'u', 'p'], ['d', 'u', 'p']] ['d', 'u', 'p'] ['o']
    (by decide)

/-! ## Claim C9 — the Locate step of `smart_replace` is case-sensitive -/

/-- Claim C9 counterexample: on the file `["Hello"]` whose sole occurrence of
`"hello"` differs from `old_text` only in letter case, the claim predicts a
replacement, but `smart_replace` matches with the case-sensitive `in`
operator and returns `TextNotFound` without writing. -/
theorem smart_replace_case_mismatch_not_found :
    containsSub (pyLower ['H', 'e', 'l', 'l', 'o']) (pyLower ['h', 'e', 'l', 'l', 'o']) = true ∧
    containsSub ['H', 'e', 'l', 'l', 'o'] ['h', 'e', 'l', 'l', 'o'] = false ∧
    smartReplace (some [['H', 'e', 'l', 'l', 'o']]) ['h', 'e', 'l', 'l', 'o'] ['x'] none =
      (.textNotFound, some [['H', 'e', 'l', 'l', 'o']]) := by
  decide

/-- Claim C9 (amended): the Locate step of `smart_replace` is a
case-sensitive literal substring search across all lines — a line counts as a
match exactly when it contains `old_text` verbatim — so on a file none of
whose lines contains `old_text` exactly (for instance when the sole
occurrence differs only in case), it returns `TextNotFound` and performs no
write. -/
theorem smart_replace_locate_case_sensitive (lines : List Str) (o n : Str)
    (el : Option Int) (h : ∀ l ∈ lines, containsSub l o = false) :
    smartReplace (some lines) o n el = (.textNotFound, some lines) ∧
    (∀ (j : Nat) (l : Str), (j, l) ∈ smartMatches lines o ↔
      (lines[j]? = some l ∧ containsSub l o = true)) := by
  constructor
  · have hms : smartMatches lines o = [] := smartMatchesAux_eq_nil h 0
    simp [smartReplace, hms]
  · intro j l
    exact mem_smartMatches

/-- Witness for C9's amended theorem at the counterexample input. -/
theorem smart_replace_locate_case_sensitive_witness :
    smartReplace (some [['H', 'i']]) ['h', 'i'] ['x'] none =
      (.textNotFound, some [['H', 'i']]) :=
  (smart_replace_locate_case_sensitive [['H', 'i']] ['h', 'i'] ['x'] none (by decide)).1

/-! ## Claim C8 — delete then reinsert -/

theorem splitNl_of_no_nl {l : Str} (h : '\n' ∉ l) : splitNl l = [l] := by
  induction l with
  | nil => rfl
  | cons c t ih =>
    have hc : ¬ (c = '\n') := fun hc => h (by simp [hc])
    have ht : '\n' ∉ t := fun hm => h (by simp [hm])
    simp only [splitNl, if_neg hc, ih ht]

theorem splitNl_append_nl {a : Str} (h : '\n' ∉ a) (r : Str) :
    splitNl (a ++ '\n' :: r) = a :: splitNl r := by
  induction a with
  | nil => simp [splitNl]
  | cons c t ih =>
    have hc : ¬ (c = '\n') := fun hc => h (by simp [hc])
    have ht : '\n' ∉ t := fun hm => h (by simp [hm])
    simp only [List.cons_append, splitNl, if_neg hc, List.append_eq]
    rw [ih ht]

/-- Splitting the newline-join of non-empty, newline-free lines restores
them — the read-back of what `_write_file_lines` writes. -/
theorem splitNl_joinNl {d : List Str} (hne : d ≠ []) (hnl : ∀ l ∈ d, '\n' ∉ l) :
    splitNl (joinNl d) = d := by
  induction d with
  | nil => exact absurd rfl hne
  | cons l rest ih =>
    have hl : '\n' ∉ l := hnl l (by simp)
    cases rest with
    | nil =>
      have : joinNl [l] = l := by simp [joinNl, List.intercalate]
      rw [this, splitNl_of_no_nl hl]
    | cons m t =>
      have hj : joinNl (l :: m :: t) = l ++ '\n' :: joinNl (m :: t) := by
        simp [joinNl, List.intercalate, List.intersperse_cons_cons]
      rw [hj, splitNl_append_nl hl]
      rw [ih (by simp) (fun x hx => hnl x (by simp [hx]))]

/-- Claim C8 counterexample: the claim's range `0 ≤ start ≤ end ≤ len(lines)`
admits the empty range `start = end`.  There `delete_lines` deletes nothing
and the "deleted content joined with newlines" is the empty string, but
`insert_lines` splits it into the one-element line list `[""]`, so the round
trip on `["a", "b"]` with `start = end = 1` produces `["a", "", "b"]`, not
the original file. -/
theorem delete_insert_empty_range_not_restored :
    deleteInsertRound [['a'], ['b']] 1 1 = (.ok, some [['a'], [], ['b']]) ∧
    some [['a'], [], ['b']] ≠ some [['a'], ['b']] := by
  decide

/-- Claim C8 (amended): for every file contents `lines` (newline-free, as
read from a file) and every non-empty valid range
`0 ≤ start < end ≤ len(lines)`, `delete_lines(start, end)` followed by
`insert_lines(start, D)` — `D` the deleted content joined with newlines —
restores the file exactly. -/
theorem delete_insert_round_trip (lines : List Str) (s e : Nat)
    (hse : s < e) (he : e ≤ lines.length) (hnl : ∀ l ∈ lines, '\n' ∉ l) :
    deleteInsertRound lines s e = (.ok, some lines) := by
  have hs : s < lines.length := lt_of_lt_of_le hse he
  have hsl : s ≤ lines.length := le_of_lt hs
  have hdel : deleteLines (some lines) s e =
      (.okDeleted ((lines.take e).drop s), some (lines.take s ++ lines.drop e)) := by
    simp only [deleteLines]
    rw [if_neg (startGuard_of_lt hs), pySlice_natCast, pySliceTo_natCast, pySliceFrom_natCast]
  have htl : (lines.take s).length = s := by
    simp [List.length_take]
    omega
  have hdl : ((lines.take e).drop s).length = e - s := by
    simp [List.length_drop, List.length_take]
    omega
  have hd_ne : (lines.take e).drop s ≠ [] := by
    intro h0
    rw [h0] at hdl
    simp at hdl
    omega
  have hd_nl : ∀ l ∈ (lines.take e).drop s, '\n' ∉ l :=
    fun l hl => hnl l (List.mem_of_mem_take (List.mem_of_mem_drop hl))
  have hsplit : splitNl (joinNl ((lines.take e).drop s)) = (lines.take e).drop s :=
    splitNl_joinNl hd_ne hd_nl
  have hclamp : clampIdx (s : Int) (lines.take s ++ lines.drop e).length = s :=
    clampIdx_natCast_of_le (by simp [List.length_take, List.length_drop]; omega)
  have htake : (lines.take s ++ lines.drop e).take s = lines.take s :=
    List.take_left' htl
  have hdrop : (lines.take s ++ lines.drop e).drop s = lines.drop e :=
    List.drop_left' htl
  rw [deleteInsertRound, hdel]
  simp only [insertLines, hclamp, hsplit, htake, hdrop]
  refine congrArg (fun x => ((.ok : EditResult), some x)) ?_
  have h1 : lines.take s ++ (lines.take e).drop s = lines.take e := by
    have h2 : (lines.take e).take s = lines.take s := by
      rw [List.take_take]
      congr 1
      omega
    conv_lhs => rw [← h2]
    exact List.take_append_drop s (lines.take e)
  rw [h1, List.take_append_drop]

/-- Witness for C8's amended theorem: deleting line 1 of `["a", "b", "c"]`
and reinserting it restores the file. -/
theorem delete_insert_round_trip_witness :
    deleteInsertRound [['a'], ['b'], ['c']] (1 : Nat) (2 : Nat) =
      (.ok, some [['a'], ['b'], ['c']]) :=
  delete_insert_round_trip [['a'], ['b'], ['c']] 1 2 (by decide) (by decide) (by decide)

/-! ## Claim C10 — a unique matching line has all its occurrences replaced

The decomposition below makes "replaces all `k` occurrences" precise: the
line splits into `k + 1` segments separated by the `k` scanned occurrences of
`old_text`, and `str.replace` is exactly the same segments re-joined with
`new_text`. -/

theorem drop_pred_of_isPrefixOf {pat : Str} {c : Char} {t : Str}
    (hp : pat ≠ []) (hpre : pat.isPrefixOf (c :: t) = true) :
    pat ++ List.drop (pat.length - 1) t = c :: t := by
  have hpfx : pat <+: (c :: t) := by
    rwa [← List.isPrefixOf_iff_prefix]
  obtain ⟨u, hu⟩ := hpfx
  have hd : List.drop pat.length (c :: t) = u := by
    rw [← hu]
    exact List.drop_left _ _
  cases pat with
  | nil => exact absurd rfl hp
  | cons p ps =>
    simp only [List.length_cons, Nat.add_sub_cancel]
    rw [show List.drop ps.length t = List.drop (p :: ps).length (c :: t) from rfl, hd]
    exact hu

theorem scan_parts (pat rep : Str) (hp : pat ≠ []) :
    ∀ (fuel : Nat) (s : Str), s.length ≤ fuel →
      ∃ parts : List Str, parts ≠ [] ∧
        parts.length = scanCount pat fuel s + 1 ∧
        List.intercalate pat parts = s ∧
        List.intercalate rep parts = scanReplace pat rep fuel s := by
  intro fuel
  induction fuel with
  | zero =>
    intro s hs
    have hnil : s = [] := List.eq_nil_of_length_eq_zero (Nat.le_zero.mp hs)
    subst hnil
    exact ⟨[[]], by simp, by simp [scanCount], by simp [List.intercalate],
      by simp [List.intercalate, scanReplace]⟩
  | succ fuel ih =>
    intro s hs
    cases s with
    | nil =>
      exact ⟨[[]], by simp, by simp [scanCount], by simp [List.intercalate],
        by simp [List.intercalate, scanReplace]⟩
    | cons c t =>
      by_cases hpre : pat.isPrefixOf (c :: t) = true
      · have hdec : (List.drop (pat.length - 1) t).length ≤ fuel := by
          simp only [List.length_drop]
          simp only [List.length_cons] at hs
          omega
        obtain ⟨parts, hne, hlen, hjoin, hrep⟩ := ih _ hdec
        obtain ⟨p₀, rest, rfl⟩ := List.exists_cons_of_ne_nil hne
        refine ⟨[] :: p₀ :: rest, by simp, ?_, ?_, ?_⟩
        · have hsc : scanCount pat (fuel + 1) (c :: t) =
              scanCount pat fuel (List.drop (pat.length - 1) t) + 1 := by
            simp [scanCount, hpre]
          rw [hsc]
          simp only [List.length_cons] at hlen ⊢
          omega
        · have : List.intercalate pat ([] :: p₀ :: rest) =
              pat ++ List.intercalate pat (p₀ :: rest) := by
            simp [List.intercalate, List.intersperse_cons_cons]
          rw [this, hjoin]
          exact drop_pred_of_isPrefixOf hp hpre
        · have : List.intercalate rep ([] :: p₀ :: rest) =
              rep ++ List.intercalate rep (p₀ :: rest) := by
            simp [List.intercalate, List.intersperse_cons_cons]
          rw [this, hrep, scanReplace, if_pos hpre]
      · have hdec : t.length ≤ fuel := by
          simp only [List.length_cons] at hs
          omega
        obtain ⟨parts, hne, hlen, hjoin, hrep⟩ := ih t hdec
        obtain ⟨p₀, rest, rfl⟩ := List.exists_cons_of_ne_nil hne
        refine ⟨(c :: p₀) :: rest, by simp, ?_, ?_, ?_⟩
        · have hsc : scanCount pat (fuel + 1) (c :: t) = scanCount pat fuel t := by
            simp [scanCount, hpre]
          rw [hsc]
          simp only [List.length_cons] at hlen ⊢
          omega
        · cases rest with
          | nil =>
            simp only [List.intercalate] at hjoin ⊢
            simp at hjoin ⊢
            exact hjoin
          | cons q qs =>
            have h₁ : List.intercalate pat ((c :: p₀) :: q :: qs) =
                (c :: p₀) ++ pat ++ List.intercalate pat (q :: qs) := by
              simp [List.intercalate, List.intersperse_cons_cons]
            have h₂ : List.intercalate pat (p₀ :: q :: qs) =
                p₀ ++ pat ++ List.intercalate pat (q :: qs) := by
              simp [List.intercalate, List.intersperse_cons_cons]
            rw [h₂] at hjoin
            rw [h₁, ← hjoin]
            simp
        · rw [scanReplace, if_neg hpre, ← hrep]
          cases rest with
          | nil =>
            simp [List.intercalate]
          | cons q qs =>
            have h₁ : List.intercalate rep ((c :: p₀) :: q :: qs) =
                (c :: p₀) ++ rep ++ List.intercalate rep (q :: qs) := by
              simp [List.intercalate, List.intersperse_cons_cons]
            have h₂ : List.intercalate rep (p₀ :: q :: qs) =
                p₀ ++ rep ++ List.intercalate rep (q :: qs) := by
              simp [List.intercalate, List.intersperse_cons_cons]
            rw [h₁, h₂]
            simp

theorem flatten_map_single : ∀ s : Str, (s.map (fun c => [c])).flatten = s := by
  intro s
  induction s with
  | nil => rfl
  | cons c t ih => simp [ih]

theorem ical_map_single (rep : Str) : ∀ (s : Str) (h : Str),
    List.intercalate rep ((h :: s.map (fun c => [c])) ++ [[]]) =
      h ++ (s.map (fun c => rep ++ [c])).flatten ++ rep := by
  intro s
  induction s with
  | nil =>
    intro h
    simp [List.intercalate, List.intersperse_cons_cons]
  | cons c t ih =>
    intro h
    have h₁ : List.intercalate rep ((h :: (c :: t).map (fun c => [c])) ++ [[]]) =
        h ++ rep ++ List.intercalate rep (([c] :: t.map (fun c => [c])) ++ [[]]) := by
      simp [List.intercalate, List.intersperse_cons_cons]
    rw [h₁, ih [c]]
    simp

theorem flatten_swap_rep (rep : Str) : ∀ s : Str,
    (s.map (fun c => rep ++ [c])).flatten ++ rep =
      rep ++ (s.map (fun c => [c] ++ rep)).flatten := by
  intro s
  induction s with
  | nil => simp
  | cons c t ih => simp [ih]

/-- Decomposition of Python's `str.replace`: a string with `count` scanned
occurrences of `pat` splits into `count + 1` segments whose `pat`-join is the
string and whose `rep`-join is the replacement result — every occurrence is
replaced, not only the first. -/
theorem parts_of_pyReplace (s pat rep : Str) :
    ∃ parts : List Str, parts ≠ [] ∧ parts.length = pyCount s pat + 1 ∧
      List.intercalate pat parts = s ∧ List.intercalate rep parts = pyReplace s pat rep := by
  by_cases hp : pat = []
  · subst hp
    refine ⟨([] : Str) :: s.map (fun c => [c]) ++ [[]], by simp, ?_, ?_, ?_⟩
    · simp [pyCount]
    · have h₁ := ical_map_single ([] : Str) s []
      simp only [List.cons_append, List.nil_append] at h₁ ⊢
      rw [h₁]
      simpa using flatten_map_single s
    · have h₁ := ical_map_single rep s []
      simp only [List.cons_append, List.nil_append] at h₁ ⊢
      have h₂ : pyReplace s [] rep = rep ++ (s.map (fun c => [c] ++ rep)).flatten := by
        simp [pyReplace]
      rw [h₁, h₂, ← flatten_swap_rep rep s]
  · obtain ⟨parts, hne, hlen, hjoin, hrep⟩ := scan_parts pat rep hp s.length s le_rfl
    exact ⟨parts, hne, by rw [hlen, pyCount, if_neg hp], hjoin,
      by rw [hrep, pyReplace, if_neg hp]⟩

/-- Claim C10: when `smart_replace` locates exactly one matching line and
`old_text` occurs `k > 1` times within that line, it replaces all `k`
occurrences on the line — the line splits into `k + 1` segments around the
`k` occurrences, and the written line is those segments re-joined with
`new_text` — and it reports a plain success, never the multiplicity
warning. -/
theorem smart_replace_unique_line_replaces_all (lines : List Str) (o n : Str)
    (i : Nat) (li : Str) (k : Nat)
    (hm : smartMatches lines o = [(i, li)])
    (hk : pyCount li o = k) (hgt : 1 < k) :
    smartReplace (some lines) o n none = (.ok, some (lines.set i (pyReplace li o n))) ∧
    (∃ parts : List Str, parts.length = k + 1 ∧
      List.intercalate o parts = li ∧ List.intercalate n parts = pyReplace li o n) := by
  refine ⟨?_, ?_⟩
  · simp [smartReplace, hm]
  · obtain ⟨parts, _, hlen, hjo, hjn⟩ := parts_of_pyReplace li o n
    exact ⟨parts, by rw [hlen, hk], hjo, hjn⟩

/-- Witness for C10: on the file `["xx"]`, `old_text = "x"` matches the
single line twice; both occurrences become `"y"`. -/
theorem smart_replace_unique_line_replaces_all_witness :
    smartReplace (some [['x', 'x']]) ['x'] ['y'] none =
      (.ok, some ([['x', 'x']].set 0 (pyReplace ['x', 'x'] ['x'] ['y']))) ∧
    (∃ parts : List Str, parts.length = 2 + 1 ∧
      List.intercalate ['x'] parts = ['x', 'x'] ∧
      List.intercalate ['y'] parts = pyReplace ['x', 'x'] ['x'] ['y']) :=
  smart_replace_unique_line_replaces_all [['x', 'x']] ['x'] ['y'] 0 ['x', 'x'] 2
    (by decide) (by decide) (by decide)

/-! ## Claim C7 — `_find_similar_lines` -/

/-- Output order of the fuzzy matcher: strictly descending score, with equal
scores ordered by ascending line index. -/
def ordR (a b : Cand) : Prop :=
  scoreOf b < scoreOf a ∨ (scoreOf a = scoreOf b ∧ idxOf a < idxOf b)

theorem simCand_eq_some {tl : Str} {θ : ℚ} {i : Nat} {line : Str} {c : Cand}
    (h : simCand tl θ i line = some c) : c.1 = i ∧ c.2.1 = line := by
  simp only [simCand] at h
  split at h
  · exact absurd h (by simp)
  · split at h
    · cases h
      exact ⟨rfl, rfl⟩
    · split at h
      · cases h
        exact ⟨rfl, rfl⟩
      · exact absurd h (by simp)

theorem simCand_some_iff {tl : Str} {θ : ℚ} {j : Nat} {l : Str} {s : ℚ} :
    simCand tl θ j l = some (j, l, s) ↔
      (pyStrip (pyLower l) ≠ [] ∧
        (if bidirContains tl (pyStrip (pyLower l)) = true then s = 9 / 10
         else s = ratioQ tl (pyStrip (pyLower l)) ∧ θ ≤ s)) := by
  simp only [simCand]
  by_cases h0 : pyStrip (pyLower l) = []
  · simp [h0]
  · rw [if_neg h0]
    by_cases h1 : bidirContains tl (pyStrip (pyLower l)) = true
    · rw [if_pos h1, if_pos h1]
      simp only [Option.some.injEq, Prod.mk.injEq, true_and]
      constructor
      · intro h
        exact ⟨h0, h.symm⟩
      · rintro ⟨-, h⟩
        exact h.symm
    · rw [if_neg h1, if_neg h1]
      by_cases h2 : θ ≤ ratioQ tl (pyStrip (pyLower l))
      · rw [if_pos h2]
        simp only [Option.some.injEq, Prod.mk.injEq, true_and]
        constructor
        · intro h
          exact ⟨h0, h.symm, h ▸ h2⟩
        · rintro ⟨-, rfl, -⟩
          rfl
      · rw [if_neg h2]
        constructor
        · intro h
          simp at h
        · rintro ⟨-, rfl, hle⟩
          exact absurd hle h2

theorem mem_candAux {tl : Str} {θ : ℚ} {ls : List Str} {j : Nat} {l : Str} {s : ℚ} :
    ∀ {i : Nat}, (j, l, s) ∈ candAux tl θ i ls ↔
      (i ≤ j ∧ ls[j - i]? = some l ∧ simCand tl θ j l = some (j, l, s)) := by
  induction ls with
  | nil => simp [candAux]
  | cons x t ih =>
    intro i
    cases hsc : simCand tl θ i x with
    | none =>
      simp only [candAux, hsc, ih]
      constructor
      · rintro ⟨h1, h2, h3⟩
        refine ⟨by omega, ?_, h3⟩
        have hji : j - i = (j - (i + 1)) + 1 := by omega
        rw [hji]
        simpa using h2
      · rintro ⟨h1, h2, h3⟩
        rcases Nat.eq_or_lt_of_le h1 with heq | hlt
        · subst heq
          simp only [Nat.sub_self] at h2
          simp at h2
          subst h2
          rw [h3] at hsc
          cases hsc
        · refine ⟨by omega, ?_, h3⟩
          have hji : j - i = (j - (i + 1)) + 1 := by omega
          rw [hji] at h2
          simpa using h2
    | some c =>
      simp only [candAux, hsc, List.mem_cons, ih]
      constructor
      · rintro (h | ⟨h1, h2, h3⟩)
        · rw [← h] at hsc
          obtain ⟨hj, hl⟩ := simCand_eq_some hsc
          simp only at hj hl
          subst hj
          subst hl
          exact ⟨le_rfl, by simp, hsc⟩
        · refine ⟨by omega, ?_, h3⟩
          have hji : j - i = (j - (i + 1)) + 1 := by omega
          rw [hji]
          simpa using h2
      · rintro ⟨h1, h2, h3⟩
        rcases Nat.eq_or_lt_of_le h1 with heq | hlt
        · subst heq
          simp only [Nat.sub_self] at h2
          simp at h2
          subst h2
          rw [h3] at hsc
          exact Or.inl (Option.some.inj hsc)
        · refine Or.inr ⟨by omega, ?_, h3⟩
          have hji : j - i = (j - (i + 1)) + 1 := by omega
          rw [hji] at h2
          simpa using h2

theorem candAux_idx_lb {tl : Str} {θ : ℚ} :
    ∀ {ls : List Str} {i : Nat} {c : Cand}, c ∈ candAux tl θ i ls → i ≤ idxOf c := by
  intro ls
  induction ls with
  | nil => intro i c h; simp [candAux] at h
  | cons x t ih =>
    intro i c h
    cases hsc : simCand tl θ i x with
    | none =>
      rw [candAux, hsc] at h
      exact le_trans (by omega) (ih h)
    | some d =>
      rw [candAux, hsc, List.mem_cons] at h
      rcases h with rfl | h
      · exact le_of_eq (simCand_eq_some hsc).1.symm
      · exact le_trans (by omega) (ih h)

theorem candAux_pairwise_idx {tl : Str} {θ : ℚ} :
    ∀ (ls : List Str) (i : Nat),
      List.Pairwise (fun a b => idxOf a < idxOf b) (candAux tl θ i ls) := by
  intro ls
  induction ls with
  | nil => intro i; simp [candAux]
  | cons x t ih =>
    intro i
    cases hsc : simCand tl θ i x with
    | none =>
      rw [candAux, hsc]
      exact ih (i + 1)
    | some d =>
      rw [candAux, hsc]
      refine List.Pairwise.cons ?_ (ih (i + 1))
      intro c hc
      have h1 : i + 1 ≤ idxOf c := candAux_idx_lb hc
      have h2 : idxOf d = i := (simCand_eq_some hsc).1
      omega

theorem mem_insDesc {c x : Cand} : ∀ {l : List Cand}, x ∈ insDesc c l ↔ (x = c ∨ x ∈ l) := by
  intro l
  induction l with
  | nil => simp [insDesc]
  | cons d ds ih =>
    by_cases h : scoreOf d < scoreOf c
    · simp [insDesc, h]
    · simp only [insDesc, if_neg h, List.mem_cons, ih]
      tauto

theorem pairwise_insDesc {c : Cand} :
    ∀ {l : List Cand}, List.Pairwise ordR l → (∀ d ∈ l, idxOf d < idxOf c) →
      List.Pairwise ordR (insDesc c l) := by
  intro l
  induction l with
  | nil => intro _ _; simp [insDesc, List.Pairwise]
  | cons d ds ih =>
    intro hp hidx
    rcases List.pairwise_cons.mp hp with ⟨hd, hds⟩
    by_cases h : scoreOf d < scoreOf c
    · rw [insDesc, if_pos h]
      refine List.Pairwise.cons ?_ hp
      intro e he
      rcases List.mem_cons.mp he with rfl | he
      · exact Or.inl h
      · rcases hd e he with h1 | ⟨h1, -⟩
        · exact Or.inl (lt_trans h1 h)
        · exact Or.inl (lt_of_le_of_lt (le_of_eq h1.symm) h)
    · rw [insDesc, if_neg h]
      refine List.Pairwise.cons ?_ (ih hds (fun e he => hidx e (by simp [he])))
      intro e he
      rcases mem_insDesc.mp he with rfl | he
      · rcases lt_or_eq_of_le (not_lt.mp h) with h1 | h1
        · exact Or.inl h1
        · exact Or.inr ⟨h1.symm, hidx d (by simp)⟩
      · exact hd e he

theorem mem_foldl_insDesc {x : Cand} :
    ∀ {l : List Cand} {acc : List Cand},
      x ∈ l.foldl (fun acc c => insDesc c acc) acc ↔ (x ∈ acc ∨ x ∈ l) := by
  intro l
  induction l with
  | nil => simp
  | cons c t ih =>
    intro acc
    simp only [List.foldl_cons, ih, mem_insDesc, List.mem_cons]
    tauto

theorem mem_sortDesc {x : Cand} {l : List Cand} : x ∈ sortDesc l ↔ x ∈ l := by
  unfold sortDesc
  rw [mem_foldl_insDesc]
  simp

theorem pairwise_foldl_insDesc :
    ∀ {l : List Cand} {acc : List Cand}, List.Pairwise ordR acc →
      (∀ d ∈ acc, ∀ c ∈ l, idxOf d < idxOf c) →
      List.Pairwise (fun a b => idxOf a < idxOf b) l →
      List.Pairwise ordR (l.foldl (fun acc c => insDesc c acc) acc) := by
  intro l
  induction l with
  | nil => intro acc h _ _; simpa using h
  | cons c t ih =>
    intro acc hacc hcross hl
    rcases List.pairwise_cons.mp hl with ⟨hc, ht⟩
    rw [List.foldl_cons]
    refine ih (pairwise_insDesc hacc (fun d hd => hcross d hd c (by simp))) ?_ ht
    intro d hd x hx
    rcases mem_insDesc.mp hd with rfl | hd
    · exact hc x hx
    · exact hcross d hd x (by simp [hx])

theorem pairwise_sortDesc {l : List Cand}
    (hl : List.Pairwise (fun a b => idxOf a < idxOf b) l) :
    List.Pairwise ordR (sortDesc l) := by
  unfold sortDesc
  exact pairwise_foldl_insDesc (by simp) (by simp) hl

/-- Claim C7: `_find_similar_lines` assigns score `0.9` to every non-blank
line in bidirectional case-insensitive substring containment with the target,
keeps any other non-blank line exactly when its sequence-similarity ratio to
the target is at least the threshold (scored by that ratio), and returns the
candidates sorted by descending score with ties broken by ascending line
index, truncated to the limit 5.  (Lines and target are compared in their
lowered, stripped forms, as the source does.) -/
theorem find_similar_spec (lines : List Str) (target : Str) (θ : ℚ) :
    (findSimilarLines lines target θ).length ≤ 5 ∧
    findSimilarLines lines target θ =
      (sortDesc (candAux (pyStrip (pyLower target)) θ 0 lines)).take 5 ∧
    List.Pairwise ordR (findSimilarLines lines target θ) ∧
    (∀ c ∈ findSimilarLines lines target θ,
      c ∈ candAux (pyStrip (pyLower target)) θ 0 lines) ∧
    (∀ (j : Nat) (l : Str) (s : ℚ),
      (j, l, s) ∈ candAux (pyStrip (pyLower target)) θ 0 lines ↔
        (lines[j]? = some l ∧ pyStrip (pyLower l) ≠ [] ∧
          (if bidirContains (pyStrip (pyLower target)) (pyStrip (pyLower l)) = true
           then s = 9 / 10
           else s = ratioQ (pyStrip (pyLower target)) (pyStrip (pyLower l)) ∧ θ ≤ s))) := by
  refine ⟨?_, rfl, ?_, ?_, ?_⟩
  · simp [findSimilarLines]
  · exact List.Pairwise.sublist (List.take_sublist _ _)
      (pairwise_sortDesc (candAux_pairwise_idx lines 0))
  · intro c hc
    exact mem_sortDesc.mp (List.mem_of_mem_take hc)
  · intro j l s
    rw [mem_candAux]
    simp only [Nat.zero_le, true_and, Nat.sub_zero]
    rw [simCand_some_iff]

/-- Witness for C7 at the spec's own example input (threshold `0.6`). -/
theorem find_similar_spec_witness :
    (findSimilarLines [['h', 'e', 'l', 'l', 'o', ' ', 'w', 'o', 'r', 'l', 'd']]
      ['h', 'e', 'l', 'o', ' ', 'w', 'r', 'l', 'd'] (6 / 10)).length ≤ 5 ∧
    List.Pairwise ordR (findSimilarLines
      [['h', 'e', 'l', 'l', 'o', ' ', 'w', 'o', 'r', 'l', 'd']]
      ['h', 'e', 'l', 'o', ' ', 'w', 'r', 'l', 'd'] (6 / 10)) := by
  have h := find_similar_spec [['h', 'e', 'l', 'l', 'o', ' ', 'w', 'o', 'r', 'l', 'd']]
    ['h', 'e', 'l', 'o', ' ', 'w', 'r', 'l', 'd'] (6 / 10)
  exact ⟨h.1, h.2.2.1⟩

end Surgical
